import Mathlib

/-!
Shallow embedding of the `promise2` Go library (promise primitive, worker
pool, and combinators) and proofs about its observable behaviour.

Modelling conventions:
* A Go `Result[T]` is a pair of a value and an optional error; the zero
  value of `T` is `default` (requiring `Inhabited T`).
* A promise's buffered result channel of capacity 1 is modelled as an
  `Option (Result T)`: `some r` means one settlement is buffered, `none`
  means the channel is empty.  Receiving removes the buffered element.
* Go `select` over several ready cases is nondeterministic: we expose the
  scheduler's choice as an explicit argument, used only when more than one
  case is ready.
* A goroutine spawned per input promise by a combinator is modelled by
  processing the inputs in an arbitrary completion order, given as a list
  of indices (a permutation of all indices when every input settles).
-/

namespace Promise2

/-- Error values of the library (`errors.go`): the three sentinel errors,
`AggregateError` (carrying its list of wrapped errors), the cancellation
error returned by `ctx.Err()`, and opaque user-supplied errors. -/
inductive Err where
  | taskPanicked
  | poolClosed
  | allPromisesRejected
  | aggregate (errs : List Err)
  | ctxCanceled
  | user (code : Nat)

/-- `Result[T]` from `promise.go`: a value together with an optional error;
when `err` is present the value is the type's zero value. -/
structure Result (T : Type) where
  value : T
  err : Option Err

/-- `Count()` of an `AggregateError` (`errors.go`): the number of wrapped
errors; zero on any other error value. -/
def aggCount : Err → Nat
  | Err.aggregate errs => errs.length
  | _ => 0

/-- `sync.Once.Do`: the first call stores its argument, every later call is
a no-op.  Used for a promise's one-shot settlement slot and for the
combinators' exactly-once guards. -/
def onceSet {α : Type} : Option α → α → Option α
  | some a, _ => some a
  | none, b => some b

/-- The behaviour of a user-supplied work function: it either returns a
(value, error) pair or panics. -/
inductive FnOutcome (T : Type) where
  | ret (value : T) (err : Option Err)
  | panics

/-- What the producer goroutine of a promise does with a work function's
outcome: settle the promise, or let a panic propagate (crashing the
process and never settling). -/
inductive ProducerResult (T : Type) where
  | settled (r : Result T)
  | panicked

/-- The goroutine body of `NewPromise` (`promise.go`): it calls `fn` and
sends the (value, error) pair on the result channel.  There is no
`recover` in this goroutine, so a panicking `fn` propagates. -/
def newPromiseRun {T : Type} (fn : FnOutcome T) : ProducerResult T :=
  match fn with
  | FnOutcome.ret v e => ProducerResult.settled ⟨v, e⟩
  | FnOutcome.panics => ProducerResult.panicked

/-- `executeTask` (`pool.go`): runs the task's function under a deferred
`recover` that converts a panic into a `Result` carrying
`ErrTaskPanicked`; otherwise it forwards the function's (value, error). -/
def executeTask {T : Type} [Inhabited T] (fn : FnOutcome T) : Result T :=
  match fn with
  | FnOutcome.ret v e => ⟨v, e⟩
  | FnOutcome.panics => ⟨default, some Err.taskPanicked⟩

/-- A call made by an executor passed to `NewPromiseWithExecutor`: either
`resolve(v)` or `reject(e)`. -/
inductive Call (T : Type) where
  | resolve (v : T)
  | reject (e : Err)

/-- The `Result` a resolve/reject call would store (`promise.go`):
`resolve v` stores `(v, nil)`, `reject e` stores the zero value and `e`. -/
def callResult {T : Type} [Inhabited T] : Call T → Result T
  | Call.resolve v => ⟨v, none⟩
  | Call.reject e => ⟨default, some e⟩

/-- `NewPromiseWithExecutor` (`promise.go`): both callbacks go through the
promise's `sync.Once`, so a sequence of calls (in invocation order)
settles the one-shot slot with the first call's result. -/
def runCalls {T : Type} [Inhabited T] (calls : List (Call T)) : Option (Result T) :=
  calls.foldl (fun st c => onceSet st (callResult c)) none

/-- The scheduler's choice in `Await`'s two-way `select`, consulted only
when both cases are ready. -/
inductive SelCase where
  | recvResult
  | ctxDone

/-- Outcome of one `Await` call: it returned a (value, error) pair, or it
blocked (neither select case ready). -/
inductive AwaitOutcome (T : Type) where
  | returned (value : T) (err : Option Err)
  | blocked

/-- `Await` (`promise.go`): `select` over the result channel and
`ctx.Done()`.  `buf` is the channel's buffer, `ctxFired` whether the
context is already done.  Returns the outcome and the channel buffer
afterwards: a successful receive consumes the buffered settlement. -/
def Await {T : Type} [Inhabited T] (buf : Option (Result T)) (ctxFired : Bool)
    (pick : SelCase) : AwaitOutcome T × Option (Result T) :=
  match buf, ctxFired with
  | some r, false => (AwaitOutcome.returned r.value r.err, none)
  | none, true => (AwaitOutcome.returned default (some Err.ctxCanceled), none)
  | none, false => (AwaitOutcome.blocked, none)
  | some r, true =>
      match pick with
      | SelCase.recvResult => (AwaitOutcome.returned r.value r.err, none)
      | SelCase.ctxDone => (AwaitOutcome.returned default (some Err.ctxCanceled), some r)

/-- The goroutine body of `Then` (`promise.go`): awaits the source with a
background (never-firing) context, then rejects with the source's error,
rejects with `fn`'s error, or resolves with the original value.  Returns
the settlement attempt of the derived promise (or `blocked` when the
source is unsettled) and the source's channel buffer afterwards. -/
def thenRun {T : Type} [Inhabited T] (buf : Option (Result T)) (fn : T → Option Err) :
    (AwaitOutcome T × Option (Result T)) :=
  match buf with
  | none => (AwaitOutcome.blocked, none)
  | some r =>
      match r.err with
      | some e => (AwaitOutcome.returned default (some e), none)
      | none =>
          match fn r.value with
          | some e => (AwaitOutcome.returned default (some e), none)
          | none => (AwaitOutcome.returned r.value none, none)

/-- The scheduler's choice in the worker loop's two-way `select`
(`pool.go`), consulted only when both cases are ready. -/
inductive WPick where
  | done
  | recv

/-- One step of the worker loop (`pool.go`): exit via `<-p.done`, execute a
received task, exit because the closed queue is drained (`ok == false`),
or block because no case is ready. -/
inductive WorkerAct (T : Type) where
  | exit
  | exec (r : Result T) (rest : List (FnOutcome T))
  | blocked

/-- One iteration of `worker`'s `select` (`pool.go`).  The `done` case is
ready iff the done channel is closed; the receive case is ready iff the
queue has an element, or is closed (then `ok == false` once drained).
`pick` decides only when both are ready. -/
def workerStep {T : Type} [Inhabited T] (doneClosed queueClosed : Bool) (pick : WPick)
    (queue : List (FnOutcome T)) : WorkerAct T :=
  match doneClosed, (!queue.isEmpty || queueClosed) with
  | true, true =>
      match pick with
      | WPick.done => WorkerAct.exit
      | WPick.recv =>
          match queue with
          | [] => WorkerAct.exit
          | t :: rest => WorkerAct.exec (executeTask t) rest
  | true, false => WorkerAct.exit
  | false, true =>
      match queue with
      | [] => WorkerAct.exit
      | t :: rest => WorkerAct.exec (executeTask t) rest
  | false, false => WorkerAct.blocked

/-- Runs the worker loop (`pool.go`) under a given schedule of select
choices.  Returns the results of the tasks it executed (in execution
order), the tasks still in the queue when it stopped, and whether the
worker returned (exited) as opposed to running out of schedule or
blocking. -/
def workerRun {T : Type} [Inhabited T] (doneClosed queueClosed : Bool) :
    List WPick → List (FnOutcome T) → List (Result T) → List (Result T) × List (FnOutcome T) × Bool
  | [], queue, acc => (acc.reverse, queue, false)
  | pick :: picks, queue, acc =>
      match workerStep doneClosed queueClosed pick queue with
      | WorkerAct.exit => (acc.reverse, queue, true)
      | WorkerAct.exec r rest => workerRun doneClosed queueClosed picks rest (r :: acc)
      | WorkerAct.blocked => (acc.reverse, queue, false)

/-- The scheduler's choice in `Submit`'s two-way `select` (`pool.go`),
consulted only when both cases are ready. -/
inductive SPick where
  | send
  | done

/-- Outcome of the goroutine spawned by `Submit` (`pool.go`): the task was
enqueued, the promise was rejected with `ErrPoolClosed`, the goroutine
panicked (a send on a closed channel), or it blocked. -/
inductive SubmitOutcome where
  | enqueued
  | rejectedPoolClosed
  | panicked
  | blocked

/-- `Submit`'s `select` (`pool.go`): `case p.taskQueue <- t` against
`case <-p.done`.  A send case is ready when the queue has free capacity or
the channel is closed; executing a send on a closed channel panics.  The
done case is ready iff the done channel is closed.  `pick` decides only
when both are ready. -/
def submitStep (doneClosed queueClosed queueFull : Bool) (pick : SPick) : SubmitOutcome :=
  match (queueClosed || !queueFull), doneClosed with
  | true, true =>
      match pick with
      | SPick.send => if queueClosed then SubmitOutcome.panicked else SubmitOutcome.enqueued
      | SPick.done => SubmitOutcome.rejectedPoolClosed
  | true, false => if queueClosed then SubmitOutcome.panicked else SubmitOutcome.enqueued
  | false, true => SubmitOutcome.rejectedPoolClosed
  | false, false => SubmitOutcome.blocked

/-- Mutable state shared by `All`'s observer goroutines
(`combinators.go`): the pre-sized `results` slice (indexed storage, zero
initialised) and the `errOnce` guard holding the first rejected error. -/
structure AllState (T : Type) (n : Nat) where
  results : Fin n → T
  firstErr : Option Err

/-- One observer goroutine of `All` (`combinators.go`), run at its
completion: on error it fires the `errOnce.Do(reject(err))` guard, on
success it writes its value into `results[idx]`. -/
def allStep {T : Type} (inputs : List (Result T)) (st : AllState T inputs.length)
    (i : Fin inputs.length) : AllState T inputs.length :=
  match inputs[i].err with
  | some e => { st with firstErr := onceSet st.firstErr e }
  | none => { st with results := Function.update st.results i inputs[i].value }

/-- The settlement of the promise returned by `All` (`combinators.go`)
when its observer goroutines complete in the order given by `order`: an
empty input resolves at once with an empty slice; otherwise the first
`reject` (fired by `errOnce` on the first error in completion order) wins
over the final `resolve(results)` issued after `wg.Wait()`. -/
def allRun {T : Type} [Inhabited T] (inputs : List (Result T))
    (order : List (Fin inputs.length)) : Result (List T) :=
  if inputs.length = 0 then ⟨[], none⟩
  else
    match (order.foldl (allStep inputs) ⟨fun _ => default, none⟩).firstErr with
    | some e => ⟨[], some e⟩
    | none => ⟨(List.finRange inputs.length).map
        (order.foldl (allStep inputs) ⟨fun _ => default, none⟩).results, none⟩

/-- `Status` constants (`combinators.go`): Go strings. -/
def StatusFulfilled : String := "fulfilled"

/-- `StatusRejected` (`combinators.go`). -/
def StatusRejected : String := "rejected"

/-- `PromiseStatus[T]` (`combinators.go`): status label plus value or
error; the field not set by `AllSettled` keeps its zero value. -/
structure PromiseStatus (T : Type) where
  status : String
  value : T
  err : Option Err

/-- The `PromiseStatus` entry `AllSettled` records for one settled input
(`combinators.go`). -/
def statusOf {T : Type} [Inhabited T] (r : Result T) : PromiseStatus T :=
  match r.err with
  | some e => ⟨StatusRejected, default, some e⟩
  | none => ⟨StatusFulfilled, r.value, none⟩

/-- The settlement of the promise returned by `AllSettled`
(`combinators.go`) when its observers complete in the order given by
`order`: each writes its status entry into `results[idx]`; after
`wg.Wait()` the promise resolves with the slice (reject is never called).
The zero value of a `PromiseStatus` slot is the empty status string with
zero value and nil error. -/
def allSettledRun {T : Type} [Inhabited T] (inputs : List (Result T))
    (order : List (Fin inputs.length)) : Result (List (PromiseStatus T)) :=
  if inputs.length = 0 then ⟨[], none⟩
  else
    ⟨(List.finRange inputs.length).map
      (order.foldl
        (fun (g : Fin inputs.length → PromiseStatus T) i =>
          Function.update g i (statusOf inputs[i]))
        (fun _ => ⟨"", default, none⟩)), none⟩

/-- Mutable state shared by `Any`'s observer goroutines
(`combinators.go`): the collected errors (appended in completion order,
guarded by `mu`) and the promise's one-shot settlement slot reached
through the `once` guard. -/
structure AnyState (T : Type) where
  errs : List Err
  settled : Option (Result T)

/-- One observer goroutine of `Any` (`combinators.go`), run at its
completion: a success fires `once.Do(resolve(val))`; a rejection appends
its error and, when it is the n-th rejection, fires
`once.Do(reject(NewAggregateError(errors)))`. -/
def anyStep {T : Type} [Inhabited T] (inputs : List (Result T)) (st : AnyState T)
    (i : Fin inputs.length) : AnyState T :=
  match inputs[i].err with
  | none => { st with settled := onceSet st.settled ⟨inputs[i].value, none⟩ }
  | some e =>
      if (st.errs ++ [e]).length = inputs.length then
        { errs := st.errs ++ [e],
          settled := onceSet st.settled ⟨default, some (Err.aggregate (st.errs ++ [e]))⟩ }
      else { st with errs := st.errs ++ [e] }

/-- The settlement of the promise returned by `Any` (`combinators.go`)
when its observer goroutines complete in the order given by `order`: an
empty input rejects at once with `ErrAllPromisesRejected`; otherwise the
one-shot slot after all observers ran (`none` would mean the promise is
still pending, which cannot happen for a full completion order). -/
def anyRun {T : Type} [Inhabited T] (inputs : List (Result T))
    (order : List (Fin inputs.length)) : Option (Result T) :=
  if inputs.length = 0 then some ⟨default, some Err.allPromisesRejected⟩
  else (order.foldl (anyStep inputs) ⟨[], none⟩).settled

/-- `Sequence` (`combinators.go`): awaits the inputs one at a time in
input order; the first error rejects immediately, otherwise it resolves
with the values in order.  Also returns how many inputs were awaited. -/
def sequenceRun {T : Type} [Inhabited T] : List (Result T) → Result (List T) × Nat
  | [] => (⟨[], none⟩, 0)
  | r :: rest =>
      match r.err with
      | some e => (⟨[], some e⟩, 1)
      | none =>
          match sequenceRun rest with
          | (res, k) =>
              match res.err with
              | some _ => (res, k + 1)
              | none => (⟨r.value :: res.value, none⟩, k + 1)

/-! Helper lemmas. -/

/-- Once the one-shot slot holds a settlement, folding further executor
calls over it leaves it unchanged. -/
theorem foldl_onceSet_frozen {T : Type} [Inhabited T] (cs : List (Call T)) (r : Result T) :
    cs.foldl (fun st c => onceSet st (callResult c)) (some r) = some r := by
  induction cs with
  | nil => rfl
  | cons c cs ih => simpa [onceSet] using ih

/-- Folding indexed writes over a list of indices: a slot holds the
written value iff its index occurs in the list. -/
theorem foldl_update_apply {n : Nat} {β : Type} (f : Fin n → β) (l : List (Fin n))
    (g : Fin n → β) (j : Fin n) :
    (l.foldl (fun g i => Function.update g i (f i)) g) j = if j ∈ l then f j else g j := by
  induction l generalizing g with
  | nil => simp
  | cons a l ih =>
      simp only [List.foldl_cons]
      rw [ih]
      by_cases hj : j ∈ l
      · simp [hj, List.mem_cons]
      · by_cases hja : j = a
        · subst hja; simp [hj, List.mem_cons, Function.update_apply]
        · simp [hj, hja, List.mem_cons, Function.update_apply]

/-- A list whose elements are all mapped to `some` keeps its length under
`filterMap`. -/
theorem length_filterMap_all_some {α β : Type} (f : α → Option β) (l : List α)
    (h : ∀ a ∈ l, (f a).isSome) : (l.filterMap f).length = l.length := by
  induction l with
  | nil => rfl
  | cons a l ih =>
      obtain ⟨b, hb⟩ := Option.isSome_iff_exists.mp (h a (List.mem_cons_self a l))
      rw [List.filterMap_cons, hb]
      simpa using ih (fun x hx => h x (List.mem_cons_of_mem _ hx))

/-- `Sequence` on a list of inputs that all fulfill: resolves with the
values in input order, after awaiting every input. -/
theorem sequenceRun_all_ok {T : Type} [Inhabited T] (inputs : List (Result T))
    (hok : ∀ r ∈ inputs, r.err = none) :
    sequenceRun inputs = (⟨inputs.map (fun r => r.value), none⟩, inputs.length) := by
  induction inputs with
  | nil => rfl
  | cons a l ih =>
      have ha : a.err = none := hok a (List.mem_cons_self a l)
      have hl := ih (fun r hr => hok r (List.mem_cons_of_mem _ hr))
      simp [sequenceRun, ha, hl]

/-- `Sequence` on a list whose first error sits after `pre` fulfilled
inputs: rejects with that error having awaited only `pre.length + 1`
inputs. -/
theorem sequenceRun_first_err {T : Type} [Inhabited T] (pre : List (Result T))
    (r : Result T) (post : List (Result T)) (e : Err)
    (hpre : ∀ p ∈ pre, p.err = none) (hr : r.err = some e) :
    sequenceRun (pre ++ r :: post) = (⟨[], some e⟩, pre.length + 1) := by
  induction pre with
  | nil => simp [sequenceRun, hr]
  | cons a l ih =>
      have ha : a.err = none := hpre a (List.mem_cons_self a l)
      have hl := ih (fun p hp => hpre p (List.mem_cons_of_mem _ hp))
      simp [sequenceRun, ha, hl]

/-- The `errOnce` guard of `All`: once it holds an error, later observer
completions leave it unchanged. -/
theorem allStep_foldl_firstErr_frozen {T : Type} (inputs : List (Result T))
    (l : List (Fin inputs.length)) (st : AllState T inputs.length) (e : Err)
    (h : st.firstErr = some e) :
    (l.foldl (allStep inputs) st).firstErr = some e := by
  induction l generalizing st with
  | nil => exact h
  | cons a l ih =>
      simp only [List.foldl_cons]
      apply ih
      cases he : inputs[(↑a : Nat)].err with
      | none => simp [allStep, he, h, onceSet]
      | some e2 => simp [allStep, he, h, onceSet]

/-- Folding `All`'s observers over fulfilling inputs only fills `results`
slots and never touches the `errOnce` guard. -/
theorem allStep_foldl_ok {T : Type} [Inhabited T] (inputs : List (Result T))
    (l : List (Fin inputs.length)) (st : AllState T inputs.length)
    (hok : ∀ i ∈ l, inputs[i].err = none) :
    (l.foldl (allStep inputs) st).firstErr = st.firstErr ∧
    ∀ j, (l.foldl (allStep inputs) st).results j
      = if j ∈ l then inputs[j].value else st.results j := by
  induction l generalizing st with
  | nil => simp
  | cons a l ih =>
      have ha : inputs[(↑a : Nat)].err = none := hok a (List.mem_cons_self a l)
      have hrest : ∀ j ∈ l, inputs[j].err = none :=
        fun j hj => hok j (List.mem_cons_of_mem _ hj)
      simp only [List.foldl_cons]
      have hstep : allStep inputs st a
          = { st with results := Function.update st.results a inputs[(↑a : Nat)].value } := by
        simp [allStep, ha]
      rw [hstep]
      obtain ⟨h1, h2⟩ := ih _ hrest
      refine ⟨h1, fun j => ?_⟩
      rw [h2 j]
      by_cases hj : j ∈ l
      · simp [hj, List.mem_cons]
      · by_cases hja : j = a
        · subst hja; simp [hj, List.mem_cons, Function.update_apply]
        · simp [hj, hja, List.mem_cons, Function.update_apply]

/-- The first rejecting observer (in completion order) fixes the error
held by `All`'s `errOnce` guard. -/
theorem allStep_foldl_firstErr_find {T : Type} (inputs : List (Result T)) :
    ∀ (l : List (Fin inputs.length)) (i : Fin inputs.length),
    l.find? (fun j => inputs[j].err.isSome) = some i →
    ∀ st : AllState T inputs.length, st.firstErr = none →
    (l.foldl (allStep inputs) st).firstErr = inputs[i].err := by
  intro l
  induction l with
  | nil => intro i hfind; simp at hfind
  | cons a l ih =>
      intro i hfind st hst
      cases he : inputs[(↑a : Nat)].err with
      | some e =>
          have hai : a = i := by
            simp [List.find?_cons, he] at hfind
            exact hfind
          subst hai
          simp only [List.foldl_cons]
          rw [allStep_foldl_firstErr_frozen inputs l _ e
            (by simp [allStep, he, hst, onceSet])]
          exact he.symm
      | none =>
          have hfind2 : l.find? (fun j => inputs[j].err.isSome) = some i := by
            simpa [List.find?_cons, he] using hfind
          simp only [List.foldl_cons]
          exact ih i hfind2 _ (by simp [allStep, he, hst])

/-- The one-shot slot of `Any`: once settled, later observer completions
leave it unchanged. -/
theorem anyStep_foldl_settled_frozen {T : Type} [Inhabited T] (inputs : List (Result T))
    (l : List (Fin inputs.length)) (st : AnyState T) (r : Result T)
    (h : st.settled = some r) :
    (l.foldl (anyStep inputs) st).settled = some r := by
  induction l generalizing st with
  | nil => exact h
  | cons a l ih =>
      simp only [List.foldl_cons]
      apply ih
      cases he : inputs[(↑a : Nat)].err with
      | none => simp [anyStep, he, h, onceSet]
      | some e =>
          simp only [anyStep, he]
          split <;> simp [h, onceSet]

/-- `Any` resolves with the first fulfilling observer (in completion
order): rejections before it never reach `n` collected errors, so the
`once` guard is first fired by that success. -/
theorem anyStep_foldl_first_success {T : Type} [Inhabited T] (inputs : List (Result T)) :
    ∀ (l : List (Fin inputs.length)) (st : AnyState T) (i : Fin inputs.length),
    st.settled = none →
    st.errs.length + l.length ≤ inputs.length →
    l.find? (fun j => inputs[j].err.isNone) = some i →
    (l.foldl (anyStep inputs) st).settled = some ⟨inputs[i].value, none⟩ := by
  intro l
  induction l with
  | nil => intro st i _ _ hfind; simp at hfind
  | cons a l ih =>
      intro st i hst hlen hfind
      cases he : inputs[(↑a : Nat)].err with
      | none =>
          have hai : a = i := by
            simp [List.find?_cons, he] at hfind
            exact hfind
          subst hai
          simp only [List.foldl_cons]
          exact anyStep_foldl_settled_frozen inputs l _ _
            (by simp [anyStep, he, hst, onceSet])
      | some e =>
          have hfind2 : l.find? (fun j => inputs[j].err.isNone) = some i := by
            simpa [List.find?_cons, he] using hfind
          have hmem := List.mem_of_find?_eq_some hfind2
          have hlpos : 0 < l.length := List.length_pos_of_mem hmem
          have hne : ¬ (st.errs.length + 1 = inputs.length) := by
            simp only [List.length_cons] at hlen
            omega
          have hstep : anyStep inputs st a = { st with errs := st.errs ++ [e] } := by
            simp [anyStep, he, hne]
          simp only [List.foldl_cons]
          rw [hstep]
          refine ih { st with errs := st.errs ++ [e] } i hst ?_ hfind2
          simp only [List.length_append, List.length_singleton]
          simp only [List.length_cons] at hlen
          omega

/-- When every observer rejects, the last one (in completion order) fires
the `once` guard with an `AggregateError` carrying all errors in
completion order. -/
theorem anyStep_foldl_all_reject {T : Type} [Inhabited T] (inputs : List (Result T)) :
    ∀ (l : List (Fin inputs.length)) (st : AnyState T),
    st.settled = none → l ≠ [] →
    (∀ j ∈ l, (inputs[j].err).isSome) →
    st.errs.length + l.length = inputs.length →
    (l.foldl (anyStep inputs) st).settled
      = some ⟨default,
          some (Err.aggregate (st.errs ++ l.filterMap (fun j => inputs[j].err)))⟩ := by
  intro l
  induction l with
  | nil => intro st _ h; exact absurd rfl h
  | cons a l ih =>
      intro st hst _ hall hlen
      have hsome := hall a (List.mem_cons_self a l)
      cases he : inputs[(↑a : Nat)].err with
      | none => simp [he] at hsome
      | some e =>
          by_cases hl : l = []
          · subst hl
            have hlen2 : st.errs.length + 1 = inputs.length := by
              simpa using hlen
            simp only [List.foldl_cons, List.foldl_nil]
            simp [anyStep, he, hlen2, hst, onceSet, List.filterMap_cons]
          · have hlpos : 0 < l.length := List.length_pos.mpr hl
            have hne : ¬ (st.errs.length + 1 = inputs.length) := by
              simp only [List.length_cons] at hlen
              omega
            have hstep : anyStep inputs st a = { st with errs := st.errs ++ [e] } := by
              simp [anyStep, he, hne]
            simp only [List.foldl_cons]
            rw [hstep]
            rw [ih { st with errs := st.errs ++ [e] } hst hl
              (fun j hj => hall j (List.mem_cons_of_mem _ hj))
              (by simp only [List.length_append, List.length_singleton]
                  simp only [List.length_cons] at hlen
                  omega)]
            simp [he, List.filterMap_cons, List.append_assoc]

/-! Claim theorems. -/

/-- C1, counterexample: a `Promise` created by `NewPromise` from a
panicking function does NOT settle rejected with `ErrTaskPanicked`; the
producer goroutine has no `recover`, so the panic propagates. -/
theorem newPromiseRun_panicking_fn_counterexample :
    newPromiseRun (FnOutcome.panics : FnOutcome Nat) = ProducerResult.panicked ∧
    newPromiseRun (FnOutcome.panics : FnOutcome Nat)
      ≠ ProducerResult.settled ⟨0, some Err.taskPanicked⟩ := by
  refine ⟨rfl, ?_⟩
  intro h
  simp [newPromiseRun] at h

/-- C1, amended: only the worker pool recovers panics.  `executeTask`
converts a panicking task into a settlement with `ErrTaskPanicked` and
forwards normal returns unchanged, and the worker keeps processing the
queue after a panicking task; but `NewPromise`'s goroutine has no
`recover`, so a panicking work function propagates its panic and the
promise never settles. -/
theorem panic_recovered_only_in_pool {T : Type} [Inhabited T] (v : T) (e : Option Err) :
    executeTask (FnOutcome.panics : FnOutcome T) = ⟨default, some Err.taskPanicked⟩ ∧
    executeTask (FnOutcome.ret v e) = ⟨v, e⟩ ∧
    newPromiseRun (FnOutcome.panics : FnOutcome T) = ProducerResult.panicked ∧
    newPromiseRun (FnOutcome.ret v e) = ProducerResult.settled ⟨v, e⟩ ∧
    workerRun false false [WPick.recv, WPick.recv]
        [FnOutcome.panics, FnOutcome.ret v e] []
      = ([⟨default, some Err.taskPanicked⟩, ⟨v, e⟩], [], false) :=
  ⟨rfl, rfl, rfl, rfl, rfl⟩

/-- C2 (code bug): after `Close()` has returned, both the done channel and
the task queue are closed, so both cases of `Submit`'s `select` are ready.
If the scheduler picks the send case, the goroutine panics with a send on
a closed channel instead of rejecting the promise with `ErrPoolClosed`;
only the other pick yields the documented rejection. -/
theorem submit_after_close_may_crash :
    submitStep true true false SPick.send = SubmitOutcome.panicked ∧
    submitStep true true false SPick.done = SubmitOutcome.rejectedPoolClosed :=
  ⟨rfl, rfl⟩

/-- C3 (code bug): after `Close()` both worker select cases are ready, so
the worker may exit via the done channel while a task is still queued:
that task is never executed (its promise never settles) even though
`Close` returns once the worker has exited. -/
theorem close_may_discard_queued_task :
    workerRun true true [WPick.done] [FnOutcome.ret (1 : Nat) none] []
      = ([], [FnOutcome.ret 1 none], true) :=
  rfl

/-- C4, counterexample: `Await` on an already-cancelled context and an
already-settled promise may return the settlement (value 7, no error)
rather than the cancellation error, because both `select` cases are ready
and the scheduler may pick the result channel. -/
theorem await_precancelled_counterexample :
    Await (some (⟨7, none⟩ : Result Nat)) true SelCase.recvResult
      = (AwaitOutcome.returned 7 none, none) ∧
    AwaitOutcome.returned 7 none ≠ AwaitOutcome.returned (0 : Nat) (some Err.ctxCanceled) := by
  refine ⟨rfl, ?_⟩
  simp

/-- C4, amended: `Await` with an already-fired cancellation token never
blocks; if the promise is unsettled it returns the cancellation error,
and if the promise is settled it returns either the settlement or the
cancellation error, depending on the scheduler's choice between the two
ready `select` cases. -/
theorem await_precancelled_no_block {T : Type} [Inhabited T]
    (buf : Option (Result T)) (pick : SelCase) :
    (Await buf true pick).1 ≠ AwaitOutcome.blocked ∧
    (buf = none →
      (Await buf true pick).1 = AwaitOutcome.returned default (some Err.ctxCanceled)) ∧
    (∀ r, buf = some r →
      (Await buf true pick).1 = AwaitOutcome.returned r.value r.err ∨
      (Await buf true pick).1 = AwaitOutcome.returned default (some Err.ctxCanceled)) := by
  cases buf <;> cases pick <;> simp [Await]

/-- C4 witness: instantiating the amended theorem at an unsettled promise
and a fired token yields the cancellation error. -/
theorem await_precancelled_no_block_witness :
    (Await (none : Option (Result Nat)) true SelCase.recvResult).1
      = AwaitOutcome.returned 0 (some Err.ctxCanceled) :=
  (await_precancelled_no_block (none : Option (Result Nat)) SelCase.recvResult).2.1 rfl

/-- C5: a promise created by `NewPromiseWithExecutor` settles exactly once
with the result of the first resolve/reject call; every subsequent call is
a no-op, and with no calls at all it stays pending. -/
theorem executor_settles_exactly_once {T : Type} [Inhabited T]
    (c : Call T) (cs : List (Call T)) :
    runCalls (c :: cs) = some (callResult c) ∧
    runCalls ([] : List (Call T)) = none := by
  refine ⟨?_, rfl⟩
  simp only [runCalls, List.foldl_cons]
  exact foldl_onceSet_frozen cs (callResult c)

/-- C7: `Sequence` awaits its inputs one at a time in input order.  If
every input fulfills it resolves with the values in input order, having
awaited all of them; if the first error follows `pre` fulfilled inputs it
rejects with exactly that error, having awaited only `pre.length + 1`
inputs, so no later input is ever awaited. -/
theorem sequence_combinator_spec {T : Type} [Inhabited T] (inputs : List (Result T)) :
    (inputs.all (fun r => r.err.isNone) →
      sequenceRun inputs = (⟨inputs.map (fun r => r.value), none⟩, inputs.length)) ∧
    (∀ (pre : List (Result T)) (r : Result T) (post : List (Result T)) (e : Err),
      inputs = pre ++ r :: post → pre.all (fun p => p.err.isNone) → r.err = some e →
      sequenceRun inputs = (⟨[], some e⟩, pre.length + 1)) := by
  constructor
  · intro hok
    exact sequenceRun_all_ok inputs
      (fun r hr => Option.isNone_iff_eq_none.mp (List.all_eq_true.mp hok r hr))
  · intro pre r post e heq hpre hr
    subst heq
    exact sequenceRun_first_err pre r post e
      (fun p hp => Option.isNone_iff_eq_none.mp (List.all_eq_true.mp hpre p hp)) hr

/-- C7 witness: a failing middle input stops the sequence after two
awaits; the trailing input is never awaited. -/
theorem sequence_combinator_spec_witness :
    sequenceRun [(⟨1, none⟩ : Result Nat), ⟨0, some (Err.user 2)⟩, ⟨3, none⟩]
      = (⟨[], some (Err.user 2)⟩, 2) :=
  (sequence_combinator_spec [⟨1, none⟩, ⟨0, some (Err.user 2)⟩, ⟨3, none⟩]).2
    [⟨1, none⟩] ⟨0, some (Err.user 2)⟩ [⟨3, none⟩] (Err.user 2) rfl rfl rfl

/-- C10: `Await` consumes the settlement.  On a settled promise with a
never-firing token it returns the settled value/error and empties the
channel buffer; a second `Await` on the emptied buffer blocks while its
token has not fired and returns only the cancellation error once it has;
and the goroutine of `Then` likewise consumes the source's buffered
settlement. -/
theorem await_consumes_settlement {T : Type} [Inhabited T] (r : Result T)
    (pick pick2 pick3 : SelCase) (fn : T → Option Err) :
    Await (some r) false pick = (AwaitOutcome.returned r.value r.err, none) ∧
    (Await (none : Option (Result T)) false pick2).1 = AwaitOutcome.blocked ∧
    (Await (none : Option (Result T)) true pick3).1
      = AwaitOutcome.returned default (some Err.ctxCanceled) ∧
    (thenRun (some r) fn).2 = none := by
  refine ⟨rfl, rfl, rfl, ?_⟩
  cases h : r.err
  · cases h2 : fn r.value <;> simp [thenRun, h, h2]
  · simp [thenRun, h]

/-- C6: for any completion order of the observer goroutines (any
permutation of the input indices), `All` resolves with the values in
input order when every input fulfills, resolves immediately with the
empty slice on empty input, and rejects with the first error in
completion order (through the exactly-once `errOnce` guard) when some
input rejects. -/
theorem all_combinator_spec {T : Type} [Inhabited T] (inputs : List (Result T))
    (order : List (Fin inputs.length))
    (hperm : order.Perm (List.finRange inputs.length)) :
    (inputs.all (fun r => r.err.isNone) →
      allRun inputs order = ⟨inputs.map (fun r => r.value), none⟩) ∧
    allRun ([] : List (Result T)) [] = ⟨[], none⟩ ∧
    (∀ i, order.find? (fun j => inputs[j].err.isSome) = some i →
      allRun inputs order = ⟨[], inputs[i].err⟩) := by
  refine ⟨?_, rfl, ?_⟩
  · intro hok
    by_cases hn : inputs.length = 0
    · have h0 : inputs = [] := List.length_eq_zero.mp hn
      subst h0
      rfl
    · have hok2 : ∀ i ∈ order, inputs[i].err = none := by
        intro i _
        exact Option.isNone_iff_eq_none.mp
          (List.all_eq_true.mp hok _ (List.getElem_mem _))
      obtain ⟨h1, h2⟩ := allStep_foldl_ok inputs order ⟨fun _ => default, none⟩ hok2
      have hmem : ∀ j : Fin inputs.length, j ∈ order :=
        fun j => hperm.mem_iff.mpr (List.mem_finRange j)
      have hres : (List.finRange inputs.length).map
          (order.foldl (allStep inputs) ⟨fun _ => default, none⟩).results
          = inputs.map (fun r => r.value) := by
        have step1 : (List.finRange inputs.length).map
            (order.foldl (allStep inputs) ⟨fun _ => default, none⟩).results
            = (List.finRange inputs.length).map (fun j => inputs[j].value) := by
          apply List.map_congr_left
          intro j _
          rw [h2 j, if_pos (hmem j)]
        rw [step1]
        conv_rhs => rw [← List.finRange_map_get inputs]
        rw [List.map_map]
        rfl
      unfold allRun
      rw [if_neg hn, h1, hres]
  · intro i hfind
    have hn : inputs.length ≠ 0 := by
      intro h0
      have := i.isLt
      omega
    have hErr := allStep_foldl_firstErr_find inputs order i hfind ⟨fun _ => default, none⟩ rfl
    have hsome : (inputs[i].err).isSome := by simpa using List.find?_some hfind
    obtain ⟨e, he⟩ := Option.isSome_iff_exists.mp hsome
    unfold allRun
    rw [if_neg hn, hErr, he]

/-- C6 witness: three fulfilling inputs completing out of order still
resolve to the values in input order. -/
theorem all_combinator_spec_witness :
    allRun [(⟨1, none⟩ : Result Nat), ⟨2, none⟩, ⟨3, none⟩]
      [⟨2, by decide⟩, ⟨0, by decide⟩, ⟨1, by decide⟩]
      = ⟨[1, 2, 3], none⟩ :=
  (all_combinator_spec [⟨1, none⟩, ⟨2, none⟩, ⟨3, none⟩]
    [⟨2, by decide⟩, ⟨0, by decide⟩, ⟨1, by decide⟩] (by decide)).1 rfl

/-- C9: for any completion order of the observer goroutines, `AllSettled`
resolves (never rejects: its settlement carries no error) with one status
entry per input in input order; a fulfilled input is recorded as
`StatusFulfilled` with its value, a rejected one as `StatusRejected` with
its error; the empty input resolves immediately with the empty slice. -/
theorem allSettled_combinator_spec {T : Type} [Inhabited T] (inputs : List (Result T))
    (order : List (Fin inputs.length))
    (hperm : order.Perm (List.finRange inputs.length)) :
    allSettledRun inputs order = ⟨inputs.map statusOf, none⟩ ∧
    allSettledRun ([] : List (Result T)) [] = ⟨[], none⟩ ∧
    (∀ (r : Result T) (e : Err), r.err = some e →
      statusOf r = ⟨StatusRejected, default, some e⟩) ∧
    (∀ r : Result T, r.err = none → statusOf r = ⟨StatusFulfilled, r.value, none⟩) := by
  refine ⟨?_, rfl, ?_, ?_⟩
  · by_cases hn : inputs.length = 0
    · have h0 : inputs = [] := List.length_eq_zero.mp hn
      subst h0
      rfl
    · have hmem : ∀ j : Fin inputs.length, j ∈ order :=
        fun j => hperm.mem_iff.mpr (List.mem_finRange j)
      unfold allSettledRun
      rw [if_neg hn]
      congr 1
      have step1 : (List.finRange inputs.length).map
          (order.foldl
            (fun (g : Fin inputs.length → PromiseStatus T) i =>
              Function.update g i (statusOf inputs[i]))
            (fun _ => ⟨"", default, none⟩))
          = (List.finRange inputs.length).map (fun j => statusOf inputs[j]) := by
        apply List.map_congr_left
        intro j _
        rw [foldl_update_apply (fun i => statusOf inputs[i]) order _ j, if_pos (hmem j)]
      rw [step1]
      conv_rhs => rw [← List.finRange_map_get inputs]
      rw [List.map_map]
      rfl
  · intro r e h
    simp [statusOf, h]
  · intro r h
    simp [statusOf, h]

/-- C9 witness: a fulfilled first input and a rejected second input,
completing in reverse order, yield the two status entries in input
order. -/
theorem allSettled_combinator_spec_witness :
    allSettledRun [(⟨4, none⟩ : Result Nat), ⟨0, some (Err.user 9)⟩]
      [⟨1, by decide⟩, ⟨0, by decide⟩]
      = ⟨[⟨StatusFulfilled, 4, none⟩, ⟨StatusRejected, 0, some (Err.user 9)⟩], none⟩ :=
  (allSettled_combinator_spec [⟨4, none⟩, ⟨0, some (Err.user 9)⟩]
    [⟨1, by decide⟩, ⟨0, by decide⟩] (by decide)).1

/-- C8: `Any` on empty input rejects immediately with
`ErrAllPromisesRejected`; with a fulfilling input it resolves with the
value of the first fulfilling input in completion order; and when all
`n ≥ 1` inputs reject it rejects with an `AggregateError` carrying all
`n` errors in completion order, whose `Count()` equals the number of
inputs. -/
theorem any_combinator_spec {T : Type} [Inhabited T] (inputs : List (Result T))
    (order : List (Fin inputs.length))
    (hperm : order.Perm (List.finRange inputs.length)) :
    anyRun ([] : List (Result T)) [] = some ⟨default, some Err.allPromisesRejected⟩ ∧
    (∀ i, order.find? (fun j => inputs[j].err.isNone) = some i →
      anyRun inputs order = some ⟨inputs[i].value, none⟩) ∧
    (inputs.all (fun r => r.err.isSome) → 0 < inputs.length →
      anyRun inputs order
        = some ⟨default, some (Err.aggregate (order.filterMap (fun j => inputs[j].err)))⟩ ∧
      aggCount (Err.aggregate (order.filterMap (fun j => inputs[j].err)))
        = inputs.length) := by
  have hlen : order.length = inputs.length := by
    simpa using hperm.length_eq
  refine ⟨rfl, ?_, ?_⟩
  · intro i hfind
    have hn : inputs.length ≠ 0 := by
      intro h0
      have := i.isLt
      omega
    unfold anyRun
    rw [if_neg hn]
    exact anyStep_foldl_first_success inputs order ⟨[], none⟩ i rfl (by simp [hlen]) hfind
  · intro hall hpos
    have hn : inputs.length ≠ 0 := by omega
    have hallmem : ∀ j ∈ order, (inputs[j].err).isSome := by
      intro j _
      exact List.all_eq_true.mp hall _ (List.getElem_mem _)
    refine ⟨?_, ?_⟩
    · unfold anyRun
      rw [if_neg hn]
      have hord : order ≠ [] := by
        intro h0
        rw [h0] at hlen
        simp at hlen
        omega
      have hagg := anyStep_foldl_all_reject inputs order ⟨[], none⟩ rfl hord hallmem
        (by simp [hlen])
      simpa using hagg
    · simp only [aggCount]
      rw [length_filterMap_all_some _ _ hallmem, hlen]

/-- C8 witness: one rejecting and one fulfilling input; `Any` resolves
with the fulfilling input's value. -/
theorem any_combinator_spec_witness :
    anyRun [(⟨0, some (Err.user 1)⟩ : Result Nat), ⟨7, none⟩]
      [⟨0, by decide⟩, ⟨1, by decide⟩]
      = some ⟨7, none⟩ :=
  (any_combinator_spec [⟨0, some (Err.user 1)⟩, ⟨7, none⟩]
    [⟨0, by decide⟩, ⟨1, by decide⟩] (by decide)).2.1 ⟨1, by decide⟩ rfl

end Promise2
